import Mathlib

/-!
Shallow embedding of the task orchestration engine of the ghostmind run
command, as documented by this repository (the run script pattern for
automation scripts).  The repository holds the documentation and the
consumer-facing declarations of the engine; the implementation itself
lives in the external module jsr:@ghostmind/run and is therefore not
present under this repository.  Following the documentation, the engine
is modelled here as pure functions: the argument parser, the capability
helpers, the selector, the priority scheduler with its group barrier and
fail-fast policy, and the aggregation of execution results.  Concurrency
within one priority group is modelled logically: one scheduling round is
one list of tasks launched together, and rounds are separated by a
completion barrier, so the round list fully determines the ordering
guarantees the documentation states.
-/

/-- Modelled from the spec: the three token classes of the argument parser
of the run script command, whose implementation is missing from this
repository (it lives in jsr:@ghostmind/run).  A token carrying an equals
sign is a named key and value pair, a token with a leading double dash and
no equals sign is a flag, and every other token is positional. -/
inductive TokenKind where
  | named (key value : String)
  | flag (key : String)
  | positional (value : String)
  deriving DecidableEq

/-- Modelled from the spec: split a character list at the first equals
sign, returning none when no equals sign occurs; the part before the sign
is the key, everything after it is the value. -/
def splitFirstEqChars : List Char → Option (List Char × List Char)
  | [] => none
  | c :: cs =>
    if c = '=' then some ([], cs)
    else
      match splitFirstEqChars cs with
      | none => none
      | some (k, v) => some (c :: k, v)

/-- Modelled from the spec: strip a leading double dash from a token,
returning the remainder when the token starts with two dashes. -/
def stripDashesL : List Char → Option (List Char)
  | '-' :: '-' :: cs => some cs
  | _ => none

/-- Modelled from the spec: classification of one raw invocation token.
A token containing an equals sign, optionally prefixed with a double
dash, is a named argument whose key is the portion before the first
equals sign with the dash prefix stripped; a token prefixed with a double
dash and containing no equals sign is a flag; any other token is
positional. -/
def classify (t : String) : TokenKind :=
  match stripDashesL t.data with
  | some body =>
    match splitFirstEqChars body with
    | some (k, v) => TokenKind.named (String.mk k) (String.mk v)
    | none => TokenKind.flag (String.mk body)
  | none =>
    match splitFirstEqChars t.data with
    | some (k, v) => TokenKind.named (String.mk k) (String.mk v)
    | none => TokenKind.positional t

/-- Modelled from the spec: the result of parsing one raw token sequence,
holding the ordered positional arguments, the named key and value pairs,
and the set of standalone flags. -/
structure ParsedArgs where
  positional : List String
  named : List (String × String)
  flags : List String
  deriving DecidableEq

/-- Modelled from the spec: record a named key and value pair; a later
occurrence of the same key overwrites the earlier value in place, and a
fresh key is appended, so no error is ever raised on duplicates. -/
def setNamed : List (String × String) → String → String → List (String × String)
  | [], k, v => [(k, v)]
  | q :: qs, k, v => if q.1 == k then (k, v) :: qs else q :: setNamed qs k v

/-- Modelled from the spec: record a flag key, keeping the flag set free
of duplicates. -/
def addFlag (fl : List String) (k : String) : List String :=
  if fl.contains k then fl else fl ++ [k]

/-- Modelled from the spec: fold one classified token into the parse
state; no token is ever rejected. -/
def parseStep (p : ParsedArgs) (t : String) : ParsedArgs :=
  match classify t with
  | TokenKind.named k v => { p with named := setNamed p.named k v }
  | TokenKind.flag k => { p with flags := addFlag p.flags k }
  | TokenKind.positional v => { p with positional := p.positional ++ [v] }

/-- Modelled from the spec: the argument parser of the run script command,
folding the raw token sequence left to right into parsed arguments. -/
def parseArgs (tokens : List String) : ParsedArgs :=
  tokens.foldl parseStep ⟨[], [], []⟩

/-- Modelled from the spec: first value stored under a key in the named
pair list (the parser keeps at most one pair per key). -/
def lookupNamed : List (String × String) → String → Option String
  | [], _ => none
  | q :: qs, k => if q.1 == k then some q.2 else lookupNamed qs k

/-- Modelled from the spec: the extract helper of the capability object;
it returns the value stored under a named key or an absent value, and it
never throws. -/
def extract (p : ParsedArgs) (k : String) : Option String :=
  lookupNamed p.named k

/-- Modelled from the spec: the has helper of the capability object; it
is true when the key is present among the flags or among the named
arguments. -/
def hasKey (p : ParsedArgs) (k : String) : Bool :=
  p.flags.contains k || p.named.any (fun q => q.1 == k)

/-- Modelled from the spec: the cmd helper of the capability object; it
builds an argument array from a sequence of present or absent entries,
dropping every absent entry and keeping the present ones in call order. -/
def cmd (parts : List (Option String)) : List String :=
  parts.filterMap id

/-- Modelled from the spec: the command variant of a task descriptor; a
shell command line, a callable reference, or a no-op. -/
inductive Command where
  | shell (text : String)
  | callable (ref : String)
  | noop
  deriving DecidableEq

/-- Modelled from the spec: one normalized task descriptor of the
orchestration map, carrying its unique name, its command and its
priority; lower priorities run earlier. -/
structure TaskDef where
  name : String
  command : Command
  priority : Int
  deriving DecidableEq

/-- Modelled from the spec: a task is selected when its name occurs among
the positional arguments of the invocation. -/
def matchesSelection (p : ParsedArgs) (t : TaskDef) : Bool :=
  p.positional.contains t.name

/-- Modelled from the spec: the selector of the orchestrator.  When one
or more positional arguments match task names the run set is exactly
those named tasks; otherwise, when the run-everything flag is present,
the run set is the entire map; otherwise nothing runs. -/
def selectTasks (tasks : List TaskDef) (p : ParsedArgs) : List TaskDef :=
  if tasks.any (matchesSelection p) then tasks.filter (matchesSelection p)
  else if p.flags.contains "all" then tasks
  else []

/-- Modelled from the spec: insert a priority value into a strictly
ascending list of priority values, keeping the list strictly ascending
and duplicate free. -/
def insertSorted (x : Int) : List Int → List Int
  | [] => [x]
  | y :: ys =>
    if x < y then x :: y :: ys
    else if x = y then y :: ys
    else y :: insertSorted x ys

/-- Modelled from the spec: the distinct priority values occurring in a
run set, in strictly ascending order. -/
def sortedPriorities (tasks : List TaskDef) : List Int :=
  tasks.foldl (fun acc t => insertSorted t.priority acc) []

/-- Modelled from the spec: the concurrency group of one priority value,
the tasks of the run set sharing that priority. -/
def priorityGroup (tasks : List TaskDef) (p : Int) : List TaskDef :=
  tasks.filter (fun t => t.priority == p)

/-- Modelled from the spec: the schedule of a run set, one scheduling
round per distinct priority value in strictly ascending order; the tasks
of one round are launched concurrently and a completion barrier separates
consecutive rounds. -/
def schedule (tasks : List TaskDef) : List (List TaskDef) :=
  (sortedPriorities tasks).map (priorityGroup tasks)

/-- Modelled from the spec: the per task execution result, reduced to the
task name and a success flag by the command executor. -/
structure ExecutionResult where
  name : String
  success : Bool
  deriving DecidableEq

/-- Modelled from the spec: the aggregated outcome of one orchestration
run: the ordered per task results, the overall success flag, and the
names of the tasks that caused a failure. -/
structure RunOutcome where
  results : List ExecutionResult
  success : Bool
  failedTasks : List String
  deriving DecidableEq

/-- Modelled from the spec: run every task of one concurrency group to
completion; the group drains fully because in-flight tasks are never
cancelled.  The oracle fails names the tasks whose execution fails. -/
def runGroup (fails : String → Bool) (g : List TaskDef) : List ExecutionResult :=
  g.map (fun t => ⟨t.name, !fails t.name⟩)

/-- Modelled from the spec: the names of the tasks of one group whose
execution fails. -/
def failedNames (fails : String → Bool) (g : List TaskDef) : List String :=
  (g.filter (fun t => fails t.name)).map (fun t => t.name)

/-- Modelled from the spec: execute the scheduling rounds in order with a
completion barrier after each round; when a round contains a failing task
the run stops after that round settles, is marked failed, and records the
failing task names, so no later round is ever entered. -/
def runGroups (fails : String → Bool) : List (List TaskDef) → RunOutcome
  | [] => ⟨[], true, []⟩
  | g :: gs =>
    if (failedNames fails g).isEmpty then
      ⟨runGroup fails g ++ (runGroups fails gs).results,
       (runGroups fails gs).success, (runGroups fails gs).failedTasks⟩
    else ⟨runGroup fails g, false, failedNames fails g⟩

/-- Modelled from the spec: schedule a run set and execute it. -/
def runSchedule (fails : String → Bool) (tasks : List TaskDef) : RunOutcome :=
  runGroups fails (schedule tasks)

/-- Modelled from the spec: the internal pipeline behind the start entry
point: select the run set from the parsed invocation, schedule it and
execute it, producing the aggregated run outcome. -/
def startRun (tasks : List TaskDef) (p : ParsedArgs) (fails : String → Bool) : RunOutcome :=
  runSchedule fails (selectTasks tasks p)

/-- Modelled from the source declarations: the start entry point exposed
to consumer scripts.  Its declared signature in the documentation of this
repository returns a promise of void, so the aggregated outcome computed
internally is discarded and nothing is returned to the caller. -/
def start (tasks : List TaskDef) (p : ParsedArgs) (fails : String → Bool) : Unit :=
  let _ := startRun tasks p fails
  ()

/-- Modelled from the spec: the invocation context built once per command
run: parsed arguments, an environment snapshot and the working directory
captured at invocation start. -/
structure InvocationContext where
  positional : List String
  named : List (String × String)
  flags : List String
  environment : List (String × String)
  workingDirectory : String
  deriving DecidableEq

/-- Modelled from the spec: build the invocation context from the raw
tokens, the environment snapshot and the working directory. -/
def buildContext (tokens : List String) (environ : List (String × String))
    (cwd : String) : InvocationContext :=
  ⟨(parseArgs tokens).positional, (parseArgs tokens).named,
   (parseArgs tokens).flags, environ, cwd⟩

/-- Modelled from the spec: the parsed arguments view of a context. -/
def ctxArgs (ctx : InvocationContext) : ParsedArgs :=
  ⟨ctx.positional, ctx.named, ctx.flags⟩

/-- Modelled from the spec: round execution with the invocation context
threaded explicitly through every scheduling step, so that the context
visible to consumer tasks at each point of the run is an output of the
model and its preservation can be stated. -/
def runGroupsCtx (fails : String → Bool) (ctx : InvocationContext) :
    List (List TaskDef) → RunOutcome × InvocationContext
  | [] => (⟨[], true, []⟩, ctx)
  | g :: gs =>
    if (failedNames fails g).isEmpty then
      (⟨runGroup fails g ++ (runGroupsCtx fails ctx gs).1.results,
        (runGroupsCtx fails ctx gs).1.success,
        (runGroupsCtx fails ctx gs).1.failedTasks⟩,
       (runGroupsCtx fails ctx gs).2)
    else (⟨runGroup fails g, false, failedNames fails g⟩, ctx)

/-- Modelled from the spec: the whole orchestration pipeline threading
the invocation context through selection, scheduling and execution. -/
def orchestrateCtx (ctx : InvocationContext) (tasks : List TaskDef)
    (fails : String → Bool) : RunOutcome × InvocationContext :=
  runGroupsCtx fails ctx (schedule (selectTasks tasks (ctxArgs ctx)))

/-- Modelled from the spec: the positional content of one token, present
exactly when the token is classified positional. -/
def positionalOf (t : String) : Option String :=
  match classify t with
  | TokenKind.positional v => some v
  | _ => none

/-- Example task map used to exercise the claim theorems on concrete
inputs; the shape follows the init scripts shown in the documentation. -/
def exampleTasks : List TaskDef :=
  [⟨"build", Command.callable "dockerRegister", 1⟩,
   ⟨"lint", Command.shell "npm run lint", 1⟩,
   ⟨"deploy", Command.callable "terraformActivate", 2⟩]

theorem mem_addFlag (fl : List String) (k a : String) :
    a ∈ addFlag fl k ↔ a ∈ fl ∨ a = k := by
  by_cases h : fl.contains k = true
  · have hk : k ∈ fl := by simpa using h
    simp only [addFlag, h, if_true]
    constructor
    · exact Or.inl
    · rintro (ha | rfl)
      · exact ha
      · exact hk
  · have hk : k ∉ fl := by simpa using h
    simp [addFlag, hk, h, List.mem_append]

theorem lookupNamed_setNamed (m : List (String × String)) (k v k' : String) :
    lookupNamed (setNamed m k v) k' = if k' = k then some v else lookupNamed m k' := by
  induction m with
  | nil =>
    by_cases hk : k' = k
    · simp [setNamed, lookupNamed, hk]
    · simp [setNamed, lookupNamed, hk, beq_iff_eq, Ne.symm hk]
  | cons q qs ih =>
    by_cases hq : q.1 = k
    · by_cases hk : k' = k
      · simp [setNamed, lookupNamed, hq, hk]
      · have hqk : ¬ q.1 = k' := by rw [hq]; exact fun he => hk he.symm
        have hkk : ¬ k = k' := fun he => hk he.symm
        simp [setNamed, lookupNamed, hq, hk, beq_iff_eq, hqk, hkk]
    · by_cases hk : k' = k
      · subst hk
        simp [setNamed, lookupNamed, hq, beq_iff_eq, ih]
      · by_cases hqk : q.1 = k'
        · simp [setNamed, lookupNamed, hq, hk, beq_iff_eq, hqk]
        · simp [setNamed, lookupNamed, hq, hk, beq_iff_eq, hqk, ih]

theorem any_setNamed_self (m : List (String × String)) (k v : String) :
    (setNamed m k v).any (fun q => q.1 == k) = true := by
  induction m with
  | nil => simp [setNamed]
  | cons q qs ih =>
    by_cases h : q.1 = k
    · simp [setNamed, h]
    · simp [setNamed, h, beq_iff_eq, ih]

theorem any_setNamed_mono (m : List (String × String)) (k k' v : String)
    (h : m.any (fun q => q.1 == k) = true) :
    (setNamed m k' v).any (fun q => q.1 == k) = true := by
  induction m with
  | nil => simp at h
  | cons q qs ih =>
    simp only [List.any_cons, Bool.or_eq_true, beq_iff_eq] at h
    by_cases hq : q.1 = k'
    · rcases h with h | h
      · have hkk : k' = k := hq.symm.trans h
        simp [setNamed, hq, hkk]
      · simp [setNamed, hq, h]
    · rcases h with h | h
      · have hkk : ¬ k = k' := fun he => hq (h.trans he)
        simp [setNamed, hq, hkk, List.any_cons, beq_iff_eq, h]
      · simp [setNamed, hq, List.any_cons, ih h]

theorem hasKey_parseStep_mono (p : ParsedArgs) (t k : String)
    (h : hasKey p k = true) : hasKey (parseStep p t) k = true := by
  unfold hasKey at h ⊢
  cases hc : classify t with
  | named k' v =>
    simp only [parseStep, hc, Bool.or_eq_true] at h ⊢
    rcases h with h | h
    · exact Or.inl h
    · exact Or.inr (any_setNamed_mono _ _ _ _ h)
  | flag k' =>
    simp only [parseStep, hc, Bool.or_eq_true] at h ⊢
    rcases h with h | h
    · left
      have hm : k ∈ p.flags := by simpa using h
      have : k ∈ addFlag p.flags k' := (mem_addFlag _ _ _).2 (Or.inl hm)
      simpa using this
    · exact Or.inr h
  | positional v => simpa [parseStep, hc] using h

theorem hasKey_parseStep_flag (p : ParsedArgs) (t k : String)
    (h : classify t = TokenKind.flag k) : hasKey (parseStep p t) k = true := by
  have hm : k ∈ addFlag p.flags k := (mem_addFlag _ _ _).2 (Or.inr rfl)
  simp [parseStep, h, hasKey, hm]

theorem hasKey_parseStep_named (p : ParsedArgs) (t k v : String)
    (h : classify t = TokenKind.named k v) : hasKey (parseStep p t) k = true := by
  simp [parseStep, h, hasKey, any_setNamed_self]

theorem hasKey_foldl_mono (toks : List String) (p : ParsedArgs) (k : String)
    (h : hasKey p k = true) : hasKey (toks.foldl parseStep p) k = true := by
  induction toks generalizing p with
  | nil => simpa using h
  | cons t ts ih => exact ih _ (hasKey_parseStep_mono _ _ _ h)

theorem hasKey_foldl_of_flag (toks : List String) (p : ParsedArgs) (k : String)
    (h : ∃ t ∈ toks, classify t = TokenKind.flag k) :
    hasKey (toks.foldl parseStep p) k = true := by
  induction toks generalizing p with
  | nil => simp at h
  | cons t ts ih =>
    rcases h with ⟨u, hu, hcl⟩
    rcases List.mem_cons.1 hu with rfl | hu2
    · exact hasKey_foldl_mono ts _ k (hasKey_parseStep_flag _ _ _ hcl)
    · exact ih _ ⟨u, hu2, hcl⟩

theorem hasKey_foldl_of_named (toks : List String) (p : ParsedArgs) (k v : String)
    (h : ∃ t ∈ toks, classify t = TokenKind.named k v) :
    hasKey (toks.foldl parseStep p) k = true := by
  induction toks generalizing p with
  | nil => simp at h
  | cons t ts ih =>
    rcases h with ⟨u, hu, hcl⟩
    rcases List.mem_cons.1 hu with rfl | hu2
    · exact hasKey_foldl_mono ts _ k (hasKey_parseStep_named _ _ _ _ hcl)
    · exact ih _ ⟨u, hu2, hcl⟩

theorem mem_flags_parseStep (p : ParsedArgs) (t k : String) :
    k ∈ (parseStep p t).flags ↔ k ∈ p.flags ∨ classify t = TokenKind.flag k := by
  cases hc : classify t with
  | named k' v => simp [parseStep, hc]
  | flag k' =>
    rw [show (parseStep p t).flags = addFlag p.flags k' by simp [parseStep, hc]]
    rw [mem_addFlag]
    constructor
    · rintro (hm | rfl)
      · exact Or.inl hm
      · exact Or.inr rfl
    · rintro (hm | he)
      · exact Or.inl hm
      · injection he with h1
        exact Or.inr h1.symm
  | positional v => simp [parseStep, hc]

theorem mem_flags_foldl (toks : List String) (p : ParsedArgs) (k : String) :
    k ∈ (toks.foldl parseStep p).flags
      ↔ k ∈ p.flags ∨ ∃ t ∈ toks, classify t = TokenKind.flag k := by
  induction toks generalizing p with
  | nil => simp
  | cons t ts ih =>
    rw [List.foldl_cons, ih, mem_flags_parseStep]
    simp only [List.mem_cons]
    constructor
    · rintro ((hm | hcl) | ⟨u, hu, hcl⟩)
      · exact Or.inl hm
      · exact Or.inr ⟨t, Or.inl rfl, hcl⟩
      · exact Or.inr ⟨u, Or.inr hu, hcl⟩
    · rintro (hm | ⟨u, hu | hu, hcl⟩)
      · exact Or.inl (Or.inl hm)
      · exact Or.inl (Or.inr (hu ▸ hcl))
      · exact Or.inr ⟨u, hu, hcl⟩

theorem positional_foldl (toks : List String) (p : ParsedArgs) :
    (toks.foldl parseStep p).positional = p.positional ++ toks.filterMap positionalOf := by
  induction toks generalizing p with
  | nil => simp
  | cons t ts ih =>
    rw [List.foldl_cons, ih, List.filterMap_cons]
    cases hc : classify t with
    | named k v => simp [parseStep, hc, positionalOf]
    | flag k => simp [parseStep, hc, positionalOf]
    | positional v => simp [parseStep, hc, positionalOf]

theorem extract_parseStep_named (p : ParsedArgs) (t k' v : String)
    (hc : classify t = TokenKind.named k' v) (k : String) :
    lookupNamed (parseStep p t).named k
      = if k = k' then some v else lookupNamed p.named k := by
  simp [parseStep, hc, lookupNamed_setNamed]

theorem extract_parseStep_other (p : ParsedArgs) (t : String)
    (hc : ∀ k' v, classify t ≠ TokenKind.named k' v) (k : String) :
    lookupNamed (parseStep p t).named k = lookupNamed p.named k := by
  cases hcc : classify t with
  | named k' v => exact absurd hcc (hc _ _)
  | flag k' => simp [parseStep, hcc]
  | positional v => simp [parseStep, hcc]

theorem extract_foldl_no_named (toks : List String) (p : ParsedArgs) (k : String)
    (h : ∀ u ∈ toks, ∀ w, classify u ≠ TokenKind.named k w) :
    lookupNamed (toks.foldl parseStep p).named k = lookupNamed p.named k := by
  induction toks generalizing p with
  | nil => rfl
  | cons t ts ih =>
    rw [List.foldl_cons, ih _ (fun u hu => h u (List.mem_cons_of_mem _ hu))]
    cases hc : classify t with
    | named k' v =>
      have hk : ¬ k = k' := fun he => h t (List.mem_cons_self _ _) v (by rw [hc, he])
      rw [extract_parseStep_named p t k' v hc k, if_neg hk]
    | flag k' =>
      exact extract_parseStep_other p t (fun a b hab => by rw [hc] at hab; cases hab) k
    | positional v =>
      exact extract_parseStep_other p t (fun a b hab => by rw [hc] at hab; cases hab) k

theorem extract_foldl_cases (toks : List String) (p : ParsedArgs) (k v : String)
    (h : lookupNamed (toks.foldl parseStep p).named k = some v) :
    lookupNamed p.named k = some v ∨ ∃ t ∈ toks, classify t = TokenKind.named k v := by
  induction toks generalizing p with
  | nil => exact Or.inl h
  | cons t ts ih =>
    rw [List.foldl_cons] at h
    rcases ih _ h with h2 | ⟨u, hu, hcl⟩
    · cases hc : classify t with
      | named k' v' =>
        rw [extract_parseStep_named p t k' v' hc k] at h2
        by_cases hk : k = k'
        · rw [if_pos hk] at h2
          injection h2 with h3
          exact Or.inr ⟨t, List.mem_cons_self _ _, by rw [hc, hk, h3]⟩
        · rw [if_neg hk] at h2
          exact Or.inl h2
      | flag k' =>
        rw [extract_parseStep_other p t (fun a b hab => by rw [hc] at hab; cases hab) k] at h2
        exact Or.inl h2
      | positional v' =>
        rw [extract_parseStep_other p t (fun a b hab => by rw [hc] at hab; cases hab) k] at h2
        exact Or.inl h2
    · exact Or.inr ⟨u, List.mem_cons_of_mem _ hu, hcl⟩

theorem mem_insertSorted (x a : Int) (l : List Int) :
    a ∈ insertSorted x l ↔ a = x ∨ a ∈ l := by
  induction l with
  | nil => simp [insertSorted]
  | cons y ys ih =>
    by_cases h1 : x < y
    · simp [insertSorted, h1]
    · by_cases h2 : x = y
      · subst h2
        simp only [insertSorted, h1, if_false, if_pos rfl]
        constructor
        · exact Or.inr
        · rintro (rfl | hm)
          · exact List.mem_cons_self _ _
          · exact hm
      · simp only [insertSorted, h1, h2, if_false, List.mem_cons, ih]
        tauto

theorem pairwise_insertSorted (x : Int) (l : List Int)
    (h : l.Pairwise (· < ·)) : (insertSorted x l).Pairwise (· < ·) := by
  induction l with
  | nil => simp [insertSorted]
  | cons y ys ih =>
    rcases List.pairwise_cons.1 h with ⟨hy, hys⟩
    by_cases h1 : x < y
    · simp only [insertSorted, if_pos h1]
      refine List.pairwise_cons.2 ⟨?_, h⟩
      intro z hz
      rcases List.mem_cons.1 hz with rfl | hz2
      · exact h1
      · exact lt_trans h1 (hy z hz2)
    · by_cases h2 : x = y
      · simpa [insertSorted, h1, h2] using h
      · have hyx : y < x := by
          rcases lt_trichotomy x y with hlt | heq | hgt
          · exact absurd hlt h1
          · exact absurd heq h2
          · exact hgt
        simp only [insertSorted, h1, h2, if_false]
        refine List.pairwise_cons.2 ⟨?_, ih hys⟩
        intro z hz
        rcases (mem_insertSorted x z ys).1 hz with rfl | hz2
        · exact hyx
        · exact hy z hz2

theorem sortedPriorities_pairwise (tasks : List TaskDef) :
    (sortedPriorities tasks).Pairwise (· < ·) := by
  have main : ∀ (ts : List TaskDef) (acc : List Int), acc.Pairwise (· < ·) →
      (ts.foldl (fun l t => insertSorted t.priority l) acc).Pairwise (· < ·) := by
    intro ts
    induction ts with
    | nil => intro acc h; exact h
    | cons t ts ih =>
      intro acc h
      exact ih _ (pairwise_insertSorted _ _ h)
  exact main tasks [] (List.Pairwise.nil)

theorem mem_sortedPriorities (tasks : List TaskDef) (a : Int) :
    a ∈ sortedPriorities tasks ↔ ∃ t ∈ tasks, t.priority = a := by
  have main : ∀ (ts : List TaskDef) (acc : List Int),
      (a ∈ ts.foldl (fun l t => insertSorted t.priority l) acc
        ↔ a ∈ acc ∨ ∃ t ∈ ts, t.priority = a) := by
    intro ts
    induction ts with
    | nil => intro acc; simp
    | cons t ts ih =>
      intro acc
      rw [List.foldl_cons, ih, mem_insertSorted]
      simp only [List.mem_cons]
      constructor
      · rintro ((rfl | hm) | ⟨u, hu, hp⟩)
        · exact Or.inr ⟨t, Or.inl rfl, rfl⟩
        · exact Or.inl hm
        · exact Or.inr ⟨u, Or.inr hu, hp⟩
      · rintro (hm | ⟨u, hu | hu, hp⟩)
        · exact Or.inl (Or.inr hm)
        · exact Or.inl (Or.inl (by rw [← hp, hu]))
        · exact Or.inr ⟨u, hu, hp⟩
  simpa using main tasks []

theorem mem_priorityGroup (tasks : List TaskDef) (a : Int) (t : TaskDef) :
    t ∈ priorityGroup tasks a ↔ t ∈ tasks ∧ t.priority = a := by
  simp [priorityGroup, List.mem_filter, beq_iff_eq]

theorem schedule_groups (tasks : List TaskDef) (g : List TaskDef)
    (hg : g ∈ schedule tasks) :
    ∃ a ∈ sortedPriorities tasks, g = priorityGroup tasks a := by
  rcases List.mem_map.1 hg with ⟨a, ha, rfl⟩
  exact ⟨a, ha, rfl⟩

theorem schedule_pairwise (tasks : List TaskDef) :
    (schedule tasks).Pairwise
      (fun g1 g2 => ∀ t1 ∈ g1, ∀ t2 ∈ g2, t1.priority < t2.priority) := by
  rw [schedule, List.pairwise_map]
  refine List.Pairwise.imp_of_mem ?_ (sortedPriorities_pairwise tasks)
  intro a b _ _ hab t1 h1 t2 h2
  rw [((mem_priorityGroup tasks a t1).1 h1).2, ((mem_priorityGroup tasks b t2).1 h2).2]
  exact hab

theorem mem_own_group (tasks : List TaskDef) (t : TaskDef) (ht : t ∈ tasks) :
    t ∈ priorityGroup tasks t.priority ∧ priorityGroup tasks t.priority ∈ schedule tasks := by
  constructor
  · exact (mem_priorityGroup tasks t.priority t).2 ⟨ht, rfl⟩
  · exact List.mem_map.2 ⟨t.priority, (mem_sortedPriorities tasks _).2 ⟨t, ht, rfl⟩, rfl⟩

theorem failedNames_eq_nil (fails : String → Bool) (g : List TaskDef)
    (hclean : ∀ t ∈ g, fails t.name = false) : failedNames fails g = [] := by
  unfold failedNames
  rw [List.filter_eq_nil_iff.2 (fun t ht => by simp [hclean t ht])]
  rfl

theorem failedNames_ne_nil (fails : String → Bool) (g : List TaskDef)
    (hfail : ∃ t ∈ g, fails t.name = true) : failedNames fails g ≠ [] := by
  rcases hfail with ⟨t, ht, hf⟩
  unfold failedNames
  intro h
  have hf2 : g.filter (fun t => fails t.name) = [] := List.map_eq_nil_iff.1 h
  have hm : t ∈ g.filter (fun t => fails t.name) := List.mem_filter.2 ⟨ht, hf⟩
  rw [hf2] at hm
  exact absurd hm (List.not_mem_nil t)

theorem runGroups_clean_cons (fails : String → Bool) (g : List TaskDef)
    (gs : List (List TaskDef)) (hclean : ∀ t ∈ g, fails t.name = false) :
    runGroups fails (g :: gs)
      = ⟨runGroup fails g ++ (runGroups fails gs).results,
         (runGroups fails gs).success, (runGroups fails gs).failedTasks⟩ := by
  simp [runGroups, failedNames_eq_nil fails g hclean]

theorem runGroups_fail_cons (fails : String → Bool) (g : List TaskDef)
    (gs : List (List TaskDef)) (hfail : ∃ t ∈ g, fails t.name = true) :
    runGroups fails (g :: gs) = ⟨runGroup fails g, false, failedNames fails g⟩ := by
  have h := failedNames_ne_nil fails g hfail
  simp only [runGroups]
  rw [if_neg (by simpa [List.isEmpty_iff] using h)]

theorem runGroups_failfast (fails : String → Bool) (gs1 : List (List TaskDef))
    (g : List TaskDef) (gs2 : List (List TaskDef))
    (hclean : ∀ g2 ∈ gs1, ∀ t ∈ g2, fails t.name = false)
    (hfail : ∃ t ∈ g, fails t.name = true) :
    runGroups fails (gs1 ++ g :: gs2)
      = ⟨((gs1 ++ [g]).map (runGroup fails)).flatten, false, failedNames fails g⟩ := by
  induction gs1 with
  | nil =>
    rw [List.nil_append, runGroups_fail_cons fails g gs2 hfail]
    simp
  | cons g1 rest ih =>
    rw [List.cons_append,
      runGroups_clean_cons fails g1 _ (hclean g1 (List.mem_cons_self _ _)),
      ih (fun g2 hg2 => hclean g2 (List.mem_cons_of_mem _ hg2))]
    simp

theorem runGroups_success_iff (fails : String → Bool) (gs : List (List TaskDef)) :
    (runGroups fails gs).success = true
      ↔ ∀ r ∈ (runGroups fails gs).results, r.success = true := by
  induction gs with
  | nil => simp [runGroups]
  | cons g gs ih =>
    by_cases hc : ∀ t ∈ g, fails t.name = false
    · rw [runGroups_clean_cons fails g gs hc]
      simp only [List.mem_append]
      constructor
      · intro hs r hr
        rcases hr with hr | hr
        · rcases List.mem_map.1 hr with ⟨t, ht, rfl⟩
          simp [hc t ht]
        · exact ih.1 hs r hr
      · intro hall
        exact ih.2 (fun r hr => hall r (Or.inr hr))
    · push_neg at hc
      rcases hc with ⟨t, ht, hf⟩
      have hf2 : fails t.name = true := by
        cases hfn : fails t.name
        · exact absurd hfn hf
        · rfl
      rw [runGroups_fail_cons fails g gs ⟨t, ht, hf2⟩]
      simp only [Bool.false_eq_true, false_iff]
      intro hall
      have := hall ⟨t.name, !fails t.name⟩ (List.mem_map.2 ⟨t, ht, rfl⟩)
      rw [hf2] at this
      simp at this

theorem runGroups_failed_sub (fails : String → Bool) (gs : List (List TaskDef)) :
    ∀ n ∈ (runGroups fails gs).failedTasks, fails n = true := by
  induction gs with
  | nil => simp [runGroups]
  | cons g gs ih =>
    by_cases hc : (failedNames fails g).isEmpty = true
    · simpa [runGroups, hc] using ih
    · simp only [runGroups, hc, if_false]
      intro n hn
      unfold failedNames at hn
      rcases List.mem_map.1 hn with ⟨t, ht, rfl⟩
      exact (List.mem_filter.1 ht).2

theorem runGroups_success_false_iff (fails : String → Bool) (gs : List (List TaskDef)) :
    (runGroups fails gs).success = false
      ↔ (runGroups fails gs).failedTasks ≠ [] := by
  induction gs with
  | nil => simp [runGroups]
  | cons g gs ih =>
    by_cases hc : (failedNames fails g).isEmpty = true
    · simpa [runGroups, hc] using ih
    · simp only [runGroups, hc, if_false]
      constructor
      · intro _
        simpa [List.isEmpty_iff] using hc
      · intro _
        rfl

theorem runGroups_results_mem (fails : String → Bool) (gs : List (List TaskDef))
    (r : ExecutionResult) (hr : r ∈ (runGroups fails gs).results) :
    ∃ g ∈ gs, ∃ t ∈ g, r = ExecutionResult.mk t.name (!fails t.name) := by
  induction gs with
  | nil => simp [runGroups] at hr
  | cons g gs ih =>
    by_cases hc : (failedNames fails g).isEmpty = true
    · simp only [runGroups, hc, if_true, eq_self_iff_true, List.mem_append] at hr
      rcases hr with hr | hr
      · rcases List.mem_map.1 hr with ⟨t, ht, rfl⟩
        exact ⟨g, List.mem_cons_self _ _, t, ht, rfl⟩
      · rcases ih hr with ⟨g2, hg2, t, ht, rfl⟩
        exact ⟨g2, List.mem_cons_of_mem _ hg2, t, ht, rfl⟩
    · simp only [runGroups, hc, if_false] at hr
      rcases List.mem_map.1 hr with ⟨t, ht, rfl⟩
      exact ⟨g, List.mem_cons_self _ _, t, ht, rfl⟩

theorem runGroupsCtx_ctx (fails : String → Bool) (ctx : InvocationContext)
    (gs : List (List TaskDef)) : (runGroupsCtx fails ctx gs).2 = ctx := by
  induction gs with
  | nil => rfl
  | cons g gs ih =>
    by_cases hc : (failedNames fails g).isEmpty = true
    · simpa [runGroupsCtx, hc] using ih
    · simp [runGroupsCtx, hc]

theorem runGroupsCtx_fst (fails : String → Bool) (ctx : InvocationContext)
    (gs : List (List TaskDef)) : (runGroupsCtx fails ctx gs).1 = runGroups fails gs := by
  induction gs with
  | nil => rfl
  | cons g gs ih =>
    by_cases hc : (failedNames fails g).isEmpty = true
    · simp [runGroupsCtx, runGroups, hc, ih]
    · simp [runGroupsCtx, runGroups, hc]

theorem classify_positional_eq (t v : String)
    (h : classify t = TokenKind.positional v) : v = t := by
  unfold classify at h
  split at h
  · split at h
    · cases h
    · cases h
  · split at h
    · cases h
    · injection h with h3
      exact h3.symm

theorem schedule_task_mem (ts : List TaskDef) (g : List TaskDef) (t : TaskDef)
    (hg : g ∈ schedule ts) (ht : t ∈ g) : t ∈ ts := by
  rcases schedule_groups ts g hg with ⟨a, _, rfl⟩
  exact ((mem_priorityGroup ts a t).1 ht).1

/-- C1: for every task map passed to start, the scheduler partitions the
selected tasks into groups keyed by priority value and runs the groups as
rounds in strictly ascending priority order with a completion barrier
between rounds: distinct rounds are strictly ordered by priority (so no
task of a later priority starts before every task of an earlier priority
has settled), every selected task is launched in the round of its own
priority, every round consists exactly of the selected tasks of one
priority value, and two selected tasks sharing a priority value always
belong to the same round, hence are launched concurrently within the same
scheduling round. -/
theorem C1_priority_rounds (tasks : List TaskDef) (p : ParsedArgs) :
    ((schedule (selectTasks tasks p)).Pairwise
      (fun g1 g2 => ∀ t1 ∈ g1, ∀ t2 ∈ g2, t1.priority < t2.priority))
    ∧ (∀ t ∈ selectTasks tasks p,
        t ∈ priorityGroup (selectTasks tasks p) t.priority
        ∧ priorityGroup (selectTasks tasks p) t.priority ∈ schedule (selectTasks tasks p))
    ∧ (∀ g ∈ schedule (selectTasks tasks p), ∀ t ∈ g,
        g = priorityGroup (selectTasks tasks p) t.priority)
    ∧ (∀ t1 ∈ selectTasks tasks p, ∀ t2 ∈ selectTasks tasks p,
        t1.priority = t2.priority →
        ∀ g ∈ schedule (selectTasks tasks p), (t1 ∈ g ↔ t2 ∈ g)) := by
  refine ⟨schedule_pairwise _, fun t ht => mem_own_group _ t ht, ?_, ?_⟩
  · intro g hg t htg
    rcases schedule_groups _ g hg with ⟨a, _, rfl⟩
    rw [((mem_priorityGroup _ a t).1 htg).2]
  · intro t1 h1 t2 h2 hp g hg
    rcases schedule_groups _ g hg with ⟨a, _, rfl⟩
    rw [mem_priorityGroup, mem_priorityGroup]
    constructor
    · rintro ⟨_, hpa⟩
      exact ⟨h2, hp ▸ hpa⟩
    · rintro ⟨_, hpa⟩
      exact ⟨h1, hp.symm ▸ hpa⟩

/-- Witness for C1 at a concrete task map: the build task of priority one
sits in the priority one round and that round occurs in the schedule. -/
theorem C1_priority_rounds_witness :
    (⟨"build", Command.callable "dockerRegister", 1⟩ : TaskDef)
        ∈ priorityGroup (selectTasks exampleTasks (parseArgs ["--all"])) 1
      ∧ priorityGroup (selectTasks exampleTasks (parseArgs ["--all"])) 1
        ∈ schedule (selectTasks exampleTasks (parseArgs ["--all"])) :=
  (C1_priority_rounds exampleTasks (parseArgs ["--all"])).2.1
    ⟨"build", Command.callable "dockerRegister", 1⟩ (by decide)

/-- C2: when some task of the first failing round fails, the run is
marked failed, the failing task names are recorded, the executed results
are exactly those of the rounds up to and including the failing round (so
no task of any later round is ever started), and every sibling task
inside the failing round still runs to completion and contributes its
result before the failure is reported. -/
theorem C2_group_failure_failfast (tasks : List TaskDef) (p : ParsedArgs)
    (fails : String → Bool) (gs1 gs2 : List (List TaskDef)) (g : List TaskDef)
    (hsplit : schedule (selectTasks tasks p) = gs1 ++ g :: gs2)
    (hclean : ∀ g2 ∈ gs1, ∀ t ∈ g2, fails t.name = false)
    (hfail : ∃ t ∈ g, fails t.name = true) :
    (startRun tasks p fails).success = false
    ∧ (startRun tasks p fails).failedTasks = failedNames fails g
    ∧ (startRun tasks p fails).failedTasks ≠ []
    ∧ (startRun tasks p fails).results = ((gs1 ++ [g]).map (runGroup fails)).flatten
    ∧ (∀ t ∈ g, ExecutionResult.mk t.name (!fails t.name) ∈ (startRun tasks p fails).results) := by
  have key : startRun tasks p fails
      = ⟨((gs1 ++ [g]).map (runGroup fails)).flatten, false, failedNames fails g⟩ := by
    unfold startRun runSchedule
    rw [hsplit]
    exact runGroups_failfast fails gs1 g gs2 hclean hfail
  refine ⟨by rw [key], by rw [key], ?_, by rw [key], ?_⟩
  · rw [key]
    exact failedNames_ne_nil fails g hfail
  · intro t ht
    rw [key]
    refine List.mem_flatten.2 ⟨runGroup fails g, ?_, ?_⟩
    · exact List.mem_map.2 ⟨g, List.mem_append.2 (Or.inr (List.mem_cons_self _ _)), rfl⟩
    · exact List.mem_map.2 ⟨t, ht, rfl⟩

/-- Witness for C2: with the build task failing in the first round, the
whole run fails and the recorded failures are the failing names of that
round. -/
theorem C2_group_failure_failfast_witness :
    (startRun exampleTasks (parseArgs ["--all"]) (fun n => n == "build")).success = false
    ∧ (startRun exampleTasks (parseArgs ["--all"]) (fun n => n == "build")).failedTasks
        = failedNames (fun n => n == "build")
            [⟨"build", Command.callable "dockerRegister", 1⟩,
             ⟨"lint", Command.shell "npm run lint", 1⟩] := by
  have h := C2_group_failure_failfast exampleTasks (parseArgs ["--all"])
    (fun n => n == "build") []
    [[⟨"deploy", Command.callable "terraformActivate", 2⟩]]
    [⟨"build", Command.callable "dockerRegister", 1⟩,
     ⟨"lint", Command.shell "npm run lint", 1⟩]
    (by decide) (by decide) (by decide)
  exact ⟨h.1, h.2.1⟩

/-- C3 counterexample: when a positional argument matches a task name and
the run-everything flag is also present, positional matches take
precedence, so the selector does not keep every entry of the map although
the flag is present; the claim as stated therefore fails at this input. -/
theorem C3_all_flag_overridden_counterexample :
    (parseArgs ["build", "--all"]).flags.contains "all" = true
    ∧ selectTasks exampleTasks (parseArgs ["build", "--all"]) ≠ exampleTasks
    ∧ (startRun exampleTasks (parseArgs ["build", "--all"]) (fun _ => false)).results.length = 1 := by
  refine ⟨by decide, by decide, by decide⟩

/-- C3 amended: if one or more positional arguments match task names,
start executes exactly those named tasks and no unselected task is ever
invoked regardless of its priority; if the run-everything flag is present
and no positional argument matches a task name, start executes every
entry in the map; positional name matches take precedence over the
flag. -/
theorem C3_selection_amended (tasks : List TaskDef) (p : ParsedArgs)
    (fails : String → Bool) :
    (tasks.any (matchesSelection p) = true →
      selectTasks tasks p = tasks.filter (matchesSelection p))
    ∧ (tasks.any (matchesSelection p) = false → p.flags.contains "all" = true →
      selectTasks tasks p = tasks)
    ∧ (∀ t ∈ selectTasks tasks p, t ∈ tasks)
    ∧ (tasks.any (matchesSelection p) = true →
      ∀ t ∈ selectTasks tasks p, matchesSelection p t = true)
    ∧ (∀ r ∈ (startRun tasks p fails).results,
        ∃ t ∈ selectTasks tasks p, r.name = t.name) := by
  refine ⟨?_, ?_, ?_, ?_, ?_⟩
  · intro h
    simp [selectTasks, h]
  · intro h1 h2
    have h2m : "all" ∈ p.flags := by simpa using h2
    simp [selectTasks, h1, h2, h2m]
  · intro t ht
    unfold selectTasks at ht
    split at ht
    · exact (List.mem_filter.1 ht).1
    · split at ht
      · exact ht
      · cases ht
  · intro h t ht
    rw [selectTasks, if_pos h] at ht
    exact (List.mem_filter.1 ht).2
  · intro r hr
    rcases runGroups_results_mem fails (schedule (selectTasks tasks p)) r hr with
      ⟨g, hg, t, htg, rfl⟩
    exact ⟨t, schedule_task_mem _ g t hg htg, rfl⟩

/-- Witness for C3 amended: naming the build task selects exactly that
task, and the run-everything flag without name matches selects the whole
map. -/
theorem C3_selection_amended_witness :
    selectTasks exampleTasks (parseArgs ["build"])
      = [⟨"build", Command.callable "dockerRegister", 1⟩]
    ∧ selectTasks exampleTasks (parseArgs ["--all"]) = exampleTasks := by
  constructor
  · have h := (C3_selection_amended exampleTasks (parseArgs ["build"]) (fun _ => false)).1
      (by decide)
    rw [h]
    decide
  · exact (C3_selection_amended exampleTasks (parseArgs ["--all"]) (fun _ => false)).2.1
      (by decide) (by decide)

/-- C4: the has helper answers true both when the key arrived as a
standalone flag token and when it arrived as a named argument token, and
in general it answers exactly the presence of the key in the flag set or
in the named map. -/
theorem C4_has_flag_or_named (toks : List String) (k v : String) :
    ((∃ t ∈ toks, classify t = TokenKind.flag k) →
      hasKey (parseArgs toks) k = true)
    ∧ ((∃ t ∈ toks, classify t = TokenKind.named k v) →
      hasKey (parseArgs toks) k = true)
    ∧ hasKey (parseArgs toks) k
        = ((parseArgs toks).flags.contains k
            || (parseArgs toks).named.any (fun q => q.1 == k)) := by
  exact ⟨fun h => hasKey_foldl_of_flag toks _ k h,
    fun h => hasKey_foldl_of_named toks _ k v h, rfl⟩

/-- Witness for C4: the key force arrives as a flag token and the key env
arrives as a named token, and both satisfy the presence check. -/
theorem C4_has_flag_or_named_witness :
    hasKey (parseArgs ["--force", "env=prod"]) "force" = true
    ∧ hasKey (parseArgs ["--force", "env=prod"]) "env" = true :=
  ⟨(C4_has_flag_or_named ["--force", "env=prod"] "force" "prod").1 (by decide),
   (C4_has_flag_or_named ["--force", "env=prod"] "env" "prod").2.1 (by decide)⟩

/-- C5 counterexample: the start entry point returns the same unit value
for a run that succeeds and for a run that fails, so its return value
cannot carry the aggregated run outcome; the documented signature returns
a promise of void, contradicting the claim that start returns the
aggregated outcome to the caller. -/
theorem C5_void_return_counterexample :
    (startRun [⟨"ok", Command.shell "true", 1⟩] (parseArgs ["ok"])
      (fun _ => false)).success = true
    ∧ (startRun [⟨"bad", Command.shell "false", 1⟩] (parseArgs ["bad"])
      (fun n => n == "bad")).success = false
    ∧ start [⟨"ok", Command.shell "true", 1⟩] (parseArgs ["ok"]) (fun _ => false)
        = start [⟨"bad", Command.shell "false", 1⟩] (parseArgs ["bad"])
            (fun n => n == "bad") :=
  ⟨by decide, by decide, rfl⟩

/-- C5 amended: start resolves with no value, as its documented signature
declares; internally the scheduler still aggregates the run outcome with
its ordered per task results, an overall success flag that is true
exactly when every executed task succeeded, and recorded failing task
names that are nonempty exactly when the run failed and that name only
genuinely failing tasks; this outcome is simply not returned to the
caller. -/
theorem C5_start_internal_outcome (tasks : List TaskDef) (p : ParsedArgs)
    (fails : String → Bool) :
    start tasks p fails = ()
    ∧ ((startRun tasks p fails).success = true ↔
        ∀ r ∈ (startRun tasks p fails).results, r.success = true)
    ∧ (∀ n ∈ (startRun tasks p fails).failedTasks, fails n = true)
    ∧ ((startRun tasks p fails).success = false ↔
        (startRun tasks p fails).failedTasks ≠ []) := by
  exact ⟨rfl, runGroups_success_iff fails _, runGroups_failed_sub fails _,
    runGroups_success_false_iff fails _⟩

/-- Witness for C5 amended at a concrete failing run: start yields the
unit value while the internal outcome records the failure. -/
theorem C5_start_internal_outcome_witness :
    start exampleTasks (parseArgs ["--all"]) (fun n => n == "build") = ()
    ∧ ((startRun exampleTasks (parseArgs ["--all"]) (fun n => n == "build")).success = false ↔
        (startRun exampleTasks (parseArgs ["--all"]) (fun n => n == "build")).failedTasks ≠ []) := by
  have h := C5_start_internal_outcome exampleTasks (parseArgs ["--all"]) (fun n => n == "build")
  exact ⟨h.1, h.2.2.2⟩

/-- C6: the parser classifies every token: the positional output is
exactly the positionally classified tokens in their original order, a key
is in the flag set exactly when some token classifies as that flag, every
extracted named value comes from some token classified as that named key
and value pair, every token falls into one of the three classes (so no
input sequence is ever rejected), and the concrete token sequence of the
claim parses to the stated positional, named and flag outputs. -/
theorem C6_parser_classification (toks : List String) :
    (parseArgs toks).positional = toks.filterMap positionalOf
    ∧ (∀ k, k ∈ (parseArgs toks).flags ↔ ∃ t ∈ toks, classify t = TokenKind.flag k)
    ∧ (∀ k v, extract (parseArgs toks) k = some v →
        ∃ t ∈ toks, classify t = TokenKind.named k v)
    ∧ (∀ t, (∃ k v, classify t = TokenKind.named k v)
        ∨ (∃ k, classify t = TokenKind.flag k)
        ∨ classify t = TokenKind.positional t)
    ∧ parseArgs ["env=prod", "--force", "input1"]
        = ⟨["input1"], [("env", "prod")], ["force"]⟩ := by
  refine ⟨?_, ?_, ?_, ?_, by decide⟩
  · simpa using positional_foldl toks ⟨[], [], []⟩
  · intro k
    simpa using mem_flags_foldl toks ⟨[], [], []⟩ k
  · intro k v h
    rcases extract_foldl_cases toks ⟨[], [], []⟩ k v h with h2 | h2
    · cases h2
    · exact h2
  · intro t
    cases hc : classify t with
    | named k v => exact Or.inl ⟨k, v, rfl⟩
    | flag k => exact Or.inr (Or.inl ⟨k, rfl⟩)
    | positional v =>
      have hv : v = t := classify_positional_eq t v hc
      subst hv
      exact Or.inr (Or.inr rfl)

/-- Witness for C6: the extracted value env maps to b, and indeed a token
classifying as that named pair occurs among the tokens. -/
theorem C6_parser_classification_witness :
    ∃ t ∈ (["env=a", "env=b"] : List String),
      classify t = TokenKind.named "env" "b" :=
  (C6_parser_classification ["env=a", "env=b"]).2.2.1 "env" "b" (by decide)

/-- C7: extract returns the supplied value of a named token, the last
occurrence winning when the key is supplied more than once, and it
returns the absent value rather than throwing when the key was never
supplied as a named argument. -/
theorem C7_extract_last_wins (toks toks1 toks2 : List String) (t k v : String) :
    ((∀ u ∈ toks, ∀ w, classify u ≠ TokenKind.named k w) →
      extract (parseArgs toks) k = none)
    ∧ (classify t = TokenKind.named k v →
      (∀ u ∈ toks2, ∀ w, classify u ≠ TokenKind.named k w) →
      extract (parseArgs (toks1 ++ t :: toks2)) k = some v) := by
  constructor
  · intro h
    exact (extract_foldl_no_named toks ⟨[], [], []⟩ k h).trans rfl
  · intro hc h2
    show lookupNamed ((toks1 ++ t :: toks2).foldl parseStep ⟨[], [], []⟩).named k = some v
    rw [List.foldl_append, List.foldl_cons]
    rw [extract_foldl_no_named toks2 _ k h2]
    rw [extract_parseStep_named _ t k v hc k, if_pos rfl]

/-- Witness for C7: with the key env supplied twice, extract returns the
later value, and a never supplied key extracts to the absent value. -/
theorem C7_extract_last_wins_witness :
    extract (parseArgs (["env=v1"] ++ "--env=v2" :: [])) "env" = some "v2"
    ∧ extract (parseArgs ["input1", "--force"]) "missing" = none := by
  constructor
  · exact (C7_extract_last_wins [] ["env=v1"] [] "--env=v2" "env" "v2").2
      (by decide) (fun u hu => absurd hu (List.not_mem_nil u))
  · refine (C7_extract_last_wins ["input1", "--force"] [] [] "" "missing" "").1 ?_
    intro u hu w
    rcases List.mem_cons.1 hu with rfl | hu2
    · intro hne
      have hclu : classify "input1" = TokenKind.positional "input1" := by decide
      rw [hclu] at hne
      cases hne
    · rcases List.mem_cons.1 hu2 with rfl | hu3
      · intro hne
        have hclu : classify "--force" = TokenKind.flag "force" := by decide
        rw [hclu] at hne
        cases hne
      · cases hu3

/-- C8: cmd removes every absent entry and keeps every present entry in
call order: a present head is kept in front, an absent head is dropped,
the builder distributes over concatenation so relative order is
preserved, and the concrete call of the claim yields the stated list. -/
theorem C8_cmd_drops_absent (xs ys : List (Option String)) (s : String) :
    cmd (some s :: xs) = s :: cmd xs
    ∧ cmd (none :: xs) = cmd xs
    ∧ cmd (xs ++ ys) = cmd xs ++ cmd ys
    ∧ cmd [some "ls", none, some "-la"] = ["ls", "-la"]
    ∧ cmd [] = [] := by
  refine ⟨rfl, rfl, ?_, by decide, rfl⟩
  simp [cmd]

/-- C9: the invocation context, threaded explicitly through every
scheduling step of the orchestration pipeline, is returned unchanged
after any prefix of the rounds and after the whole run, so the context a
consumer task observes at any point of the run, including its environment
snapshot and working directory, equals the context as built at invocation
start; threading the context also leaves the computed outcome exactly
that of the plain scheduler. -/
theorem C9_context_immutable (ctx : InvocationContext) (tasks : List TaskDef)
    (fails : String → Bool) (gs : List (List TaskDef)) (k : Nat) :
    (runGroupsCtx fails ctx gs).2 = ctx
    ∧ (runGroupsCtx fails ctx (gs.take k)).2 = ctx
    ∧ (orchestrateCtx ctx tasks fails).2 = ctx
    ∧ (orchestrateCtx ctx tasks fails).2.environment = ctx.environment
    ∧ (orchestrateCtx ctx tasks fails).2.workingDirectory = ctx.workingDirectory
    ∧ (runGroupsCtx fails ctx gs).1 = runGroups fails gs := by
  refine ⟨runGroupsCtx_ctx fails ctx gs, runGroupsCtx_ctx fails ctx (gs.take k),
    runGroupsCtx_ctx fails ctx _, ?_, ?_, runGroupsCtx_fst fails ctx gs⟩
  · exact congrArg InvocationContext.environment (runGroupsCtx_ctx fails ctx _)
  · exact congrArg InvocationContext.workingDirectory (runGroupsCtx_ctx fails ctx _)

/-- C10: when no positional argument matches any task name and the
run-everything flag is absent, the selector yields the empty run set and
start executes none of the tasks in the map. -/
theorem C10_no_match_no_all_runs_nothing (tasks : List TaskDef) (p : ParsedArgs)
    (fails : String → Bool)
    (hmatch : tasks.any (matchesSelection p) = false)
    (hall : p.flags.contains "all" = false) :
    selectTasks tasks p = []
    ∧ startRun tasks p fails = ⟨[], true, []⟩ := by
  have hsel : selectTasks tasks p = [] := by
    have hm : "all" ∉ p.flags := by simpa using hall
    simp [selectTasks, hmatch, hall, hm]
  refine ⟨hsel, ?_⟩
  unfold startRun runSchedule
  rw [hsel]
  rfl

/-- Witness for C10: with a nonmatching positional argument and no
run-everything flag, nothing is selected and nothing runs. -/
theorem C10_no_match_no_all_runs_nothing_witness :
    selectTasks exampleTasks (parseArgs ["missing", "env=prod"]) = []
    ∧ startRun exampleTasks (parseArgs ["missing", "env=prod"]) (fun _ => false)
        = ⟨[], true, []⟩ :=
  C10_no_match_no_all_runs_nothing exampleTasks (parseArgs ["missing", "env=prod"])
    (fun _ => false) (by decide) (by decide)
